import Mathlib

/-!
# Verification of the research-paper-fetcher core logic

A shallow embedding, over `List Char` / `String`, of the pure core of the
`research_paper_fetcher` Python package:

* `utils.py` — the data model (`Author`, `Paper`, `FilteredPaper`) and the
  affiliation classifier `CompanyDetector.is_non_academic` /
  `CompanyDetector.extract_company_name`;
* `paper_fetcher.py` — the record extractor (`_extract_publication_date`,
  `_extract_authors`, `_extract_corresponding_email`), modelled over an
  abstract article record (XML elements become `Option`-valued fields);
* `data_processor.py` — `filter_papers_with_company_authors` and
  `to_dataframe`.

Strings are modelled at ASCII level: Python's `str.lower` becomes
`Char.toLower` on each character, `re`'s word characters `[A-Za-z0-9_]`
become `isWordChar`.  Regular-expression searching (the corporate-suffix
patterns and the e-mail pattern) is modelled by explicit leftmost scanning
with greedy matching and backtracking, following Python `re` semantics.
-/

/-! ## Basic list utilities (models of Python string primitives) -/

/-- `listStartsWith needle hay`: `needle` is a prefix of `hay`. -/
def listStartsWith : List Char → List Char → Bool
  | [], _ => true
  | _ :: _, [] => false
  | a :: as, b :: bs => a == b && listStartsWith as bs

/-- `listContains needle hay`: `needle` occurs as a contiguous substring of
`hay`.  Model of Python's `needle in hay` for strings. -/
def listContains (needle : List Char) : List Char → Bool
  | [] => listStartsWith needle []
  | c :: rest => listStartsWith needle (c :: rest) || listContains needle rest

/-- Character-wise lowercasing; model of Python `str.lower` at ASCII level. -/
def lowerList (l : List Char) : List Char := l.map Char.toLower

/-- Model of Python `str.strip()`: drop whitespace from both ends. -/
def pyStrip (l : List Char) : List Char :=
  ((l.dropWhile Char.isWhitespace).reverse.dropWhile Char.isWhitespace).reverse

/-- Model of Python `str.zfill(width)`: left-pad with `'0'` up to `width`,
keeping a leading sign character in place. -/
def zfill (width : Nat) (s : List Char) : List Char :=
  let pad := List.replicate (width - s.length) '0'
  match s with
  | c :: rest => if c == '+' || c == '-' then c :: (pad ++ rest) else pad ++ s
  | [] => pad

/-- String-level wrapper for `zfill`. -/
def zfillStr (width : Nat) (s : String) : String := String.mk (zfill width s.data)

/-- Model of Python `'-'.join(parts)`. -/
def joinDash : List String → String
  | [] => ""
  | [x] => x
  | x :: y :: rest => x ++ "-" ++ joinDash (y :: rest)

/-- Model of Python `' | '.join(parts)` as used by `to_dataframe`. -/
def joinPipe : List String → String
  | [] => ""
  | [x] => x
  | x :: y :: rest => x ++ " | " ++ joinPipe (y :: rest)

/-- A character that is neither a comma nor a semicolon (the complement of
the `re.split(r'[,;]', ...)` separator class). -/
def notSep (c : Char) : Bool := !(c == ',' || c == ';')

/-- Model of `re.split(r'[,;]', s)`: split on every comma or semicolon. -/
def splitSeps : List Char → List (List Char)
  | [] => [[]]
  | c :: rest =>
    if c == ',' || c == ';' then [] :: splitSeps rest
    else
      match splitSeps rest with
      | [] => [[c]]
      | p :: ps => (c :: p) :: ps

/-- Model of Python `s.split(" | ")`: repeatedly split at the leftmost
occurrence of the three-character separator `" | "`. -/
def splitPipeCore : List Char → List (List Char)
  | [] => [[]]
  | [c] => [[c]]
  | [c, d] => [[c, d]]
  | c :: d :: e :: rest =>
    if c = ' ' ∧ d = '|' ∧ e = ' ' then
      [] :: splitPipeCore rest
    else
      match splitPipeCore (d :: e :: rest) with
      | [] => [[c]]
      | p :: ps => (c :: p) :: ps

/-- String-level wrapper for `splitPipeCore`. -/
def splitPipeStr (s : String) : List String :=
  (splitPipeCore s.data).map String.mk

/-- Keep the first occurrence of each element, accumulating results in
order; `dedupFirstAux acc l` appends to `acc` the elements of `l` not yet
seen. -/
def dedupFirstAux (acc : List String) : List String → List String
  | [] => acc
  | a :: l =>
    if acc.contains a then dedupFirstAux acc l else dedupFirstAux (acc ++ [a]) l

/-- First-occurrence deduplication (the semantics of the
`if company_name not in company_affiliations: append` accumulation). -/
def dedupFirst (l : List String) : List String := dedupFirstAux [] l

/-! ## Word characters and the corporate-suffix regex

`is_non_academic` tests `re.search(p, affiliation_lower)` for each pattern
`p` in `[r'\binc\.?\b', r'\bcorp\.?\b', r'\bltd\.?\b', r'\bllc\.?\b',
r'\bco\.?\b', r'\bcompany\b', r'\bcorporation\b']`.  Each pattern is a
word-boundary, a literal word, an optional period (for the first five), and
a closing word-boundary.  We model the search directly: scan positions left
to right; at a position, the word must be a literal prefix and the
boundaries must hold (`\b` holds between two characters of which exactly
one is a word character, ends of the string counting as non-word). -/

/-- `re` word character (ASCII): `[A-Za-z0-9_]`. -/
def isWordChar (c : Char) : Bool := c.isAlphanum || c == '_'

/-- Word-character test for an optional character; ends of the string count
as non-word. -/
def isWordOptB : Option Char → Bool
  | none => false
  | some c => isWordChar c

/-- After the literal word was consumed, the rest of the pattern (`\.?\b`
when `optDot` is true, plain `\b` otherwise) matches the remaining text
`r`: either the plain closing `\b` holds right here (end of text, or next
character non-word), or — when the pattern has the optional period — a
literal period is consumed and `\b` holds after it (which needs a
following word character). -/
def afterOk (optDot : Bool) : List Char → Bool
  | [] => true
  | c :: r =>
    !isWordChar c ||
      (optDot && c == '.' &&
        (match r with | d :: _ => isWordChar d | [] => false))

/-- The word `w` (with its closing boundary) matches at the start of `s`. -/
def matchWordAt (w : List Char) (optDot : Bool) (s : List Char) : Bool :=
  listStartsWith w s && afterOk optDot (s.drop w.length)

/-- Leftmost scan for `\bw\.?\b` (or `\bw\b`) in the text; `prev` is the
character just before the current position (`none` at the start). -/
def searchWord (w : List Char) (optDot : Bool) : Option Char → List Char → Bool
  | _, [] => false
  | prev, c :: rest =>
    ((isWordOptB prev != isWordChar c) && matchWordAt w optDot (c :: rest)) ||
      searchWord w optDot (some c) rest

/-- `re.search` of the word-boundary pattern succeeds. -/
def searchWordTop (w : List Char) (optDot : Bool) (s : List Char) : Bool :=
  searchWord w optDot none s

/-! ## Data model (`utils.py`) -/

/-- `utils.Author`: an author with their affiliation information. -/
structure Author where
  name : String
  affiliation : String
  email : Option String := none
deriving DecidableEq, Repr

/-- `utils.Paper`: a research paper with its metadata. -/
structure Paper where
  pubmed_id : String
  title : String
  publication_date : String
  authors : List Author
  corresponding_author_email : Option String := none
deriving DecidableEq, Repr

/-- `utils.FilteredPaper`: a filtered paper with non-academic authors. -/
structure FilteredPaper where
  pubmed_id : String
  title : String
  publication_date : String
  non_academic_authors : List String
  company_affiliations : List String
  corresponding_author_email : Option String
deriving DecidableEq, Repr

/-! ## The affiliation classifier (`utils.CompanyDetector`) -/

/-- `CompanyDetector.PHARMA_BIOTECH_KEYWORDS`, verbatim. -/
def PHARMA_BIOTECH_KEYWORDS : List String :=
  ["pharmaceutical", "pharma", "biotech", "biotechnology", "biopharmaceutical",
   "drug", "therapeutics", "medicine", "clinical", "research and development",
   "r&d", "life sciences", "biopharma"]

/-- `CompanyDetector.ACADEMIC_KEYWORDS`, verbatim. -/
def ACADEMIC_KEYWORDS : List String :=
  ["university", "college", "school", "institute", "department", "faculty",
   "laboratory", "lab", "center", "centre", "hospital", "medical center",
   "research institute", "academy", "foundation"]

/-- `CompanyDetector.COMPANY_NAMES`, verbatim. -/
def COMPANY_NAMES : List String :=
  ["novartis", "pfizer", "roche", "astrazeneca", "gilead",
   "johnson & johnson", "lilly", "sanofi", "bayer", "abbvie",
   "bristol-myers", "amgen", "regeneron", "biogen", "merck",
   "takeda", "genentech", "boehringer", "vertex", "illumina",
   "novo nordisk", "servier"]

/-- The corporate-suffix patterns in source order: the word and whether the
pattern carries the optional period (`\.?`) — the first five do, `company`
and `corporation` do not. -/
def CORPORATE_PATTERNS : List (String × Bool) :=
  [("inc", true), ("corp", true), ("ltd", true), ("llc", true), ("co", true),
   ("company", false), ("corporation", false)]

/-- Stage 1 of `is_non_academic`: some known company name occurs in the
lowercased affiliation. -/
def companyHit (affiliation : String) : Bool :=
  COMPANY_NAMES.any (fun c => listContains c.data (lowerList affiliation.data))

/-- Stage 2 of `is_non_academic`: some corporate-suffix pattern matches the
lowercased affiliation. -/
def corporateHit (affiliation : String) : Bool :=
  CORPORATE_PATTERNS.any
    (fun p => searchWordTop p.1.data p.2 (lowerList affiliation.data))

/-- Stage 3 of `is_non_academic`: some academic keyword occurs in the
lowercased affiliation. -/
def academicHit (affiliation : String) : Bool :=
  ACADEMIC_KEYWORDS.any (fun k => listContains k.data (lowerList affiliation.data))

/-- Stage 4 of `is_non_academic`: some pharma/biotech keyword occurs in the
lowercased affiliation. -/
def pharmaHit (affiliation : String) : Bool :=
  PHARMA_BIOTECH_KEYWORDS.any (fun k => listContains k.data (lowerList affiliation.data))

/-- `CompanyDetector.is_non_academic`: known company name → true; else
corporate suffix → true; else academic keyword → false; else pharma/biotech
keyword → true; else false.  (The method's `print` diagnostic is not part
of the contract and is not modelled.) -/
def is_non_academic (affiliation : String) : Bool :=
  if companyHit affiliation then true
  else if corporateHit affiliation then true
  else if academicHit affiliation then false
  else pharmaHit affiliation

/-- `CompanyDetector.extract_company_name`: `re.split(r'[,;]', affiliation)`,
take the first part, strip it. -/
def extract_company_name (affiliation : String) : String :=
  String.mk (pyStrip ((splitSeps affiliation.data).headD []))

example : is_non_academic "Novartis Institute for Biomedical Research" = true := by decide
example : is_non_academic "Department of Clinical Research, Harvard University" = false := by decide
example : is_non_academic "XYZ Biotech Solutions" = true := by decide
example : is_non_academic "Moderna Inc" = true := by decide
example : is_non_academic "University of Colorado" = false := by decide
example : is_non_academic "" = false := by decide
example : extract_company_name "Pfizer Inc, New York, NY" = "Pfizer Inc" := by decide

/-! ## The e-mail pattern (`paper_fetcher._extract_corresponding_email`)

The pattern is `r'\b[A-Za-z0-9._%+-]+@[A-Za-z0-9.-]+\.[A-Z|a-z]{2,}\b'` and
`re.findall(...)[0]` is the leftmost match.  We model the engine exactly:
scan start positions left to right; at a position, the local part is the
maximal run of local-class characters (backtracking it cannot help, since
`'@'` is not in the class), then `'@'`, then the domain part is chosen
greedily (longest split of the maximal domain-class run whose next
character is the literal `'.'`, backtracking to shorter splits), then the
TLD part is the greedy longest run (length ≥ 2) of TLD-class characters
whose closing `\b` holds, backtracking to shorter lengths. -/

/-- The local-part character class `[A-Za-z0-9._%+-]`. -/
def localClass (c : Char) : Bool :=
  c.isAlphanum || c == '.' || c == '_' || c == '%' || c == '+' || c == '-'

/-- The domain character class `[A-Za-z0-9.-]`. -/
def domainClass (c : Char) : Bool := c.isAlphanum || c == '.' || c == '-'

/-- The TLD character class `[A-Z|a-z]` (note: it contains `'|'`). -/
def tldClass (c : Char) : Bool := c.isAlpha || c == '|'

/-- Greedy TLD matching with backtracking: try length `t+1` (down from the
full TLD-class run), requiring length ≥ 2, staying within the run, and the
closing `\b` between the last TLD character and the next character. -/
def tryTldFrom (ts : List Char) : Nat → Option (List Char)
  | 0 => none
  | t + 1 =>
    if 2 ≤ t + 1 && t + 1 ≤ (ts.takeWhile tldClass).length
        && (isWordOptB (ts.get? t) != isWordOptB (ts.get? (t + 1))) then
      some (ts.take (t + 1))
    else tryTldFrom ts t

/-- Match `[A-Z|a-z]{2,}\b` greedily at the start of `ts`. -/
def tryTld (ts : List Char) : Option (List Char) :=
  tryTldFrom ts (ts.takeWhile tldClass).length

/-- Greedy domain matching with backtracking over the maximal domain-class
run `run` (`after` is the text following the run): try the split at `d+1`
(down from the end of the run), requiring the character at that index to be
the literal `'.'`, then match the TLD on the rest.  Returns the domain part
and the TLD part. -/
def tryDom (run after : List Char) : Nat → Option (List Char × List Char)
  | 0 => none
  | d + 1 =>
    match run.drop (d + 1) with
    | '.' :: tsrun =>
      match tryTld (tsrun ++ after) with
      | some tld => some (run.take (d + 1), tld)
      | none => tryDom run after d
    | _ => tryDom run after d

/-- Attempt the whole e-mail pattern at the current position; `prev` is the
character just before the position.  Returns the matched substring. -/
def attemptEmail (prev : Option Char) (s : List Char) : Option (List Char) :=
  if (s.takeWhile localClass).isEmpty then none
  else if isWordOptB prev == isWordOptB s.head? then none
  else
    match s.dropWhile localClass with
    | '@' :: rest2 =>
      match tryDom (rest2.takeWhile domainClass) (rest2.dropWhile domainClass)
          ((rest2.takeWhile domainClass).length - 1) with
      | some (dom, tld) =>
        some (s.takeWhile localClass ++ '@' :: (dom ++ '.' :: tld))
      | none => none
    | _ => none

/-- Leftmost scan: the first position where the e-mail pattern matches. -/
def findFirstEmailAux : Option Char → List Char → Option (List Char)
  | _, [] => none
  | prev, c :: rest =>
    match attemptEmail prev (c :: rest) with
    | some m => some m
    | none => findFirstEmailAux (some c) rest

/-- `re.findall(email_pattern, t)[0]` when a match exists, else `none`. -/
def findFirstEmail (t : String) : Option String :=
  (findFirstEmailAux none t.data).map String.mk

/-! ## The record extractor (`paper_fetcher.PubMedClient`)

An article's XML is abstracted to exactly the data the extractor reads: an
`Author` element becomes an `AuthorElem` (optional `LastName`, `ForeName`
and `Affiliation` texts — `none` models an absent element), and the three
candidate date elements become optional `DateField`s of optional `Year`,
`Month`, `Day` texts. -/

/-- One `Author` element of the record. -/
structure AuthorElem where
  lastName : Option String
  foreName : Option String
  affiliation : Option String
deriving DecidableEq, Repr

/-- One date element (`PubDate`, `ArticleDate` or `DateCompleted`). -/
structure DateField where
  year : Option String
  month : Option String
  day : Option String
deriving DecidableEq, Repr

/-- The three candidate date elements of an article, in the order the
extractor tries them. -/
structure ArticleDates where
  pubDate : Option DateField
  articleDate : Option DateField
  dateCompleted : Option DateField
deriving DecidableEq, Repr

/-- The body of `_extract_publication_date`'s loop for one present date
element: if `Year` is absent the element does not count (`none`); otherwise
compose `Year`, then `Month` zero-padded to 2 if present, then `Day`
zero-padded to 2 if present, joined with hyphens. -/
def dateFromField (f : DateField) : Option String :=
  match f.year with
  | none => none
  | some y =>
    some (joinDash ([y] ++
      (match f.month with | some m => [zfillStr 2 m] | none => []) ++
      (match f.day with | some d => [zfillStr 2 d] | none => [])))

/-- The loop of `_extract_publication_date` over the candidate fields. -/
def extractDateLoop : List (Option DateField) → String
  | [] => "Unknown Date"
  | none :: rest => extractDateLoop rest
  | some f :: rest =>
    match dateFromField f with
    | some d => d
    | none => extractDateLoop rest

/-- `PubMedClient._extract_publication_date`. -/
def extract_publication_date (a : ArticleDates) : String :=
  extractDateLoop [a.pubDate, a.articleDate, a.dateCompleted]

/-- `PubMedClient._extract_authors`: skip entries without a `LastName`;
name is `"fore last"` when `ForeName` is present, else the last name;
affiliation defaults to the empty string when the element is absent. -/
def extract_authors (elems : List AuthorElem) : List Author :=
  elems.filterMap (fun e =>
    match e.lastName with
    | none => none
    | some ln =>
      some { name := match e.foreName with
                     | some fn => fn ++ " " ++ ln
                     | none => ln
             affiliation := e.affiliation.getD ""
             email := none })

/-- `PubMedClient._extract_corresponding_email`: scan all `Author`
elements in document order; for the first one whose affiliation text is
present and non-empty and contains an e-mail match, return the leftmost
match in that text. -/
def extract_corresponding_email : List AuthorElem → Option String
  | [] => none
  | e :: rest =>
    match e.affiliation with
    | none => extract_corresponding_email rest
    | some t =>
      if t = "" then extract_corresponding_email rest
      else
        match findFirstEmail t with
        | some m => some m
        | none => extract_corresponding_email rest

/-! ## The data processor (`data_processor.PaperProcessor`) -/

/-- The inner loop of `filter_papers_with_company_authors` over one paper's
authors, carrying the two accumulators: append the author's name to
`names` whenever the affiliation classifies non-academic, and append the
extracted company name to `comps` unless it is already present. -/
def collectAux : List Author → List String → List String → List String × List String
  | [], names, comps => (names, comps)
  | a :: rest, names, comps =>
    if is_non_academic a.affiliation then
      collectAux rest (names ++ [a.name])
        (let company_name := extract_company_name a.affiliation
         if comps.contains company_name then comps else comps ++ [company_name])
    else collectAux rest names comps

/-- `PaperProcessor.filter_papers_with_company_authors`: one
`FilteredPaper` per input paper whose accumulated non-academic author list
is non-empty, in input order. -/
def filter_papers_with_company_authors : List Paper → List FilteredPaper
  | [] => []
  | p :: rest =>
    let r := collectAux p.authors [] []
    if r.1.isEmpty then filter_papers_with_company_authors rest
    else
      { pubmed_id := p.pubmed_id
        title := p.title
        publication_date := p.publication_date
        non_academic_authors := r.1
        company_affiliations := r.2
        corresponding_author_email := p.corresponding_author_email } ::
        filter_papers_with_company_authors rest

/-- One rendered row of `PaperProcessor.to_dataframe`. -/
structure Row where
  pubmedID : String
  title : String
  publicationDate : String
  nonAcademicAuthors : String
  companyAffiliations : String
  correspondingAuthorEmail : String
deriving DecidableEq, Repr

/-- The row built for one `FilteredPaper` by `to_dataframe`: the two list
columns are joined with `" | "`, and a missing e-mail renders as `""`
(Python `email or ''`). -/
def rowOfFilteredPaper (p : FilteredPaper) : Row :=
  { pubmedID := p.pubmed_id
    title := p.title
    publicationDate := p.publication_date
    nonAcademicAuthors := joinPipe p.non_academic_authors
    companyAffiliations := joinPipe p.company_affiliations
    correspondingAuthorEmail := p.corresponding_author_email.getD "" }

/-- `PaperProcessor.to_dataframe` as the list of its rows. -/
def to_dataframe (l : List FilteredPaper) : List Row := l.map rowOfFilteredPaper

example : findFirstEmail "Contact: john.doe@pfizer.com." = some "john.doe@pfizer.com" := by decide
example : findFirstEmail "MIT, Cambridge" = none := by decide
example : findFirstEmail "x a@b.c.de y" = some "a@b.c.de" := by decide
example : findFirstEmail "q a@b.cd.e r" = some "a@b.cd" := by decide
example : findFirstEmail "--@b.co" = none := by decide
example : extract_publication_date ⟨some ⟨some "2023", some "3", none⟩, none, none⟩ = "2023-03" := by decide
example : extract_publication_date ⟨some ⟨none, some "3", some "4"⟩, some ⟨some "2022", none, some "5"⟩, none⟩ = "2022-05" := by decide
example : extract_publication_date ⟨none, none, none⟩ = "Unknown Date" := by decide
example :
    filter_papers_with_company_authors
      [⟨"1", "T", "2023", [⟨"A", "MIT", none⟩, ⟨"B", "Moderna Inc", none⟩], none⟩] =
      [⟨"1", "T", "2023", ["B"], ["Moderna Inc"], none⟩] := by decide
example :
    filter_papers_with_company_authors
      [⟨"1", "T", "2023", [⟨"A", "MIT", none⟩], none⟩] = [] := by decide

/-! ## Spec-side formulations -/

/-- Spec formulation for C3: the first candidate date field (in the order
primary publication date, article date, completion date) that is present
and contains a `Year`. -/
def firstYearField (a : ArticleDates) : Option DateField :=
  (([a.pubDate, a.articleDate, a.dateCompleted]).filterMap id).find?
    (fun f => f.year.isSome)

/-- Spec formulation for C3: compose the date as the Year, then the Month
zero-padded to 2 digits if present, then the Day zero-padded to 2 digits if
present, joined with hyphens. -/
def composeDate (y : String) (mo da : Option String) : String :=
  joinDash ([y] ++ (mo.map (zfillStr 2)).toList ++ (da.map (zfillStr 2)).toList)

/-! ## Helper lemmas -/

/-- The first part of `re.split(r'[,;]', s)` is the longest separator-free
leading segment. -/
theorem splitSeps_headD (l : List Char) :
    (splitSeps l).headD [] = l.takeWhile notSep := by
  induction l with
  | nil => rfl
  | cons c rest ih =>
    unfold splitSeps
    rw [List.takeWhile_cons]
    cases hc : (c == ',' || c == ';') with
    | true =>
      have hn : notSep c = false := by unfold notSep; rw [hc]; rfl
      simp [hc, hn]
    | false =>
      have hn : notSep c = true := by unfold notSep; rw [hc]; rfl
      cases hs : splitSeps rest with
      | nil =>
        rw [hs] at ih
        have h2 : List.takeWhile notSep rest = [] := ih.symm
        simp [hc, hn, hs, h2]
      | cons p ps =>
        rw [hs] at ih
        have h2 : List.takeWhile notSep rest = p := ih.symm
        simp [hc, hn, hs, h2]

/-- A list all of whose elements satisfy `p` is its own `takeWhile p`. -/
theorem takeWhile_of_all {p : Char → Bool} (l : List Char) (h : l.all p = true) :
    l.takeWhile p = l := by
  induction l with
  | nil => rfl
  | cons c rest ih =>
    simp only [List.all_cons, Bool.and_eq_true] at h
    simp [List.takeWhile_cons, h.1, ih h.2]

/-- `extractDateLoop` returns the composed date of the first present field
with a `Year`, else the sentinel. -/
theorem extractDateLoop_eq (l : List (Option DateField)) :
    extractDateLoop l =
      (match (l.filterMap id).find? (fun f => f.year.isSome) with
       | some f => composeDate (f.year.getD "") f.month f.day
       | none => "Unknown Date") := by
  induction l with
  | nil => rfl
  | cons o rest ih =>
    cases o with
    | none => simpa [extractDateLoop, List.filterMap_cons] using ih
    | some f =>
      obtain ⟨oy, om, od⟩ := f
      cases oy with
      | none => simpa [extractDateLoop, dateFromField, List.filterMap_cons] using ih
      | some y =>
        cases om <;> cases od <;>
          simp [extractDateLoop, dateFromField, composeDate, List.filterMap_cons,
            List.find?_cons, joinDash]

/-! ## Claims -/

/-- C1: any affiliation whose lowercasing contains a known company name as
a substring, or which contains a word-boundary match of one of the
corporate suffixes `inc`, `corp`, `ltd`, `llc`, `co`, `company`,
`corporation` (each optionally followed by a period), is classified
non-academic, regardless of any academic keywords also present. -/
theorem company_or_suffix_forces_non_academic (s : String)
    (h : companyHit s = true ∨ corporateHit s = true) :
    is_non_academic s = true := by
  unfold is_non_academic
  rcases h with h | h
  · simp [h]
  · cases hc : companyHit s <;> simp [h, hc]

/-- Witness for C1 at the spec's own example. -/
theorem company_or_suffix_forces_non_academic_witness :
    is_non_academic "Novartis Institute for Biomedical Research" = true :=
  company_or_suffix_forces_non_academic _ (Or.inl (by decide))

/-- C2: when no company name occurs and no corporate-suffix pattern
matches, an academic keyword forces `false` even in the presence of a
pharma/biotech keyword; with no academic keyword, a pharma/biotech keyword
gives `true`; with neither, the result is `false`. -/
theorem academic_overrides_pharma_classification (s : String)
    (hc : companyHit s = false) (hw : corporateHit s = false) :
    (academicHit s = true → is_non_academic s = false) ∧
    (academicHit s = false → pharmaHit s = true → is_non_academic s = true) ∧
    (academicHit s = false → pharmaHit s = false → is_non_academic s = false) := by
  unfold is_non_academic
  refine ⟨fun ha => ?_, fun ha hp => ?_, fun ha hp => ?_⟩ <;>
    simp [hc, hw, ha]
  · exact hp
  · exact hp

/-- Witness for C2 at the spec's own example: an academic keyword
(`university`) co-occurring with a pharma keyword (`clinical`) yields
`false`. -/
theorem academic_overrides_pharma_classification_witness :
    is_non_academic "Department of Clinical Research, Harvard University" = false :=
  (academic_overrides_pharma_classification _ (by decide) (by decide)).1 (by decide)

/-- C3: the publication date comes from the first candidate date field
containing a `Year`, composed as Year, zero-padded Month if present,
zero-padded Day if present, hyphen-joined; with no `Year` anywhere the
result is `"Unknown Date"`; and Year=2023, Month=3, no Day gives
`"2023-03"`. -/
theorem publication_date_first_year_field :
    (∀ a : ArticleDates, extract_publication_date a =
      (match firstYearField a with
       | some f => composeDate (f.year.getD "") f.month f.day
       | none => "Unknown Date")) ∧
    extract_publication_date ⟨some ⟨some "2023", some "3", none⟩, none, none⟩ = "2023-03" ∧
    (∀ a : ArticleDates, firstYearField a = none →
      extract_publication_date a = "Unknown Date") := by
  have key : ∀ a : ArticleDates, extract_publication_date a =
      (match firstYearField a with
       | some f => composeDate (f.year.getD "") f.month f.day
       | none => "Unknown Date") :=
    fun a => extractDateLoop_eq _
  refine ⟨key, by decide, fun a h => ?_⟩
  rw [key a, h]

/-- Witness for C3: a record with date fields present but no `Year`
anywhere normalizes to the sentinel. -/
theorem publication_date_first_year_field_witness :
    extract_publication_date
      ⟨some ⟨none, some "7", none⟩, none, some ⟨none, none, some "9"⟩⟩ =
      "Unknown Date" :=
  (publication_date_first_year_field).2.2 _ (by decide)

/-- C6: `extract_company_name` returns the segment before the first comma
or semicolon, whitespace-trimmed; the whole trimmed string when neither
occurs; and `"Pfizer Inc, New York, NY"` maps to `"Pfizer Inc"`. -/
theorem extract_company_name_first_segment :
    (∀ s : String, extract_company_name s =
      String.mk (pyStrip (s.data.takeWhile notSep))) ∧
    (∀ s : String, s.data.all notSep = true →
      extract_company_name s = String.mk (pyStrip s.data)) ∧
    extract_company_name "Pfizer Inc, New York, NY" = "Pfizer Inc" := by
  refine ⟨fun s => ?_, fun s h => ?_, by decide⟩
  · unfold extract_company_name
    rw [splitSeps_headD]
  · unfold extract_company_name
    rw [splitSeps_headD, takeWhile_of_all _ h]

/-- Witness for C6: a separator-free affiliation is returned whole
(trimmed). -/
theorem extract_company_name_first_segment_witness :
    extract_company_name " Genentech Inc " = String.mk (pyStrip " Genentech Inc ".data) :=
  (extract_company_name_first_segment).2.1 _ (by decide)

/-- C9: the empty affiliation classifies academic; an author element with
no affiliation element yields an extracted author with the empty-string
affiliation, which classifies academic; and an author whose affiliation
classifies academic contributes nothing to the accumulated
name/company lists. -/
theorem empty_affiliation_classifies_academic :
    is_non_academic "" = false ∧
    (∀ e : AuthorElem, e.affiliation = none →
      ∀ a ∈ extract_authors [e], a.affiliation = "" ∧ is_non_academic a.affiliation = false) ∧
    (∀ (l₁ l₂ : List Author) (a : Author) (names comps : List String),
      is_non_academic a.affiliation = false →
      collectAux (l₁ ++ a :: l₂) names comps = collectAux (l₁ ++ l₂) names comps) := by
  refine ⟨by decide, ?_, ?_⟩
  · intro e he a ha
    simp only [extract_authors, List.filterMap_cons, List.filterMap_nil] at ha
    cases hl : e.lastName with
    | none => rw [hl] at ha; simp at ha
    | some ln =>
      rw [hl] at ha
      simp only [List.mem_singleton] at ha
      subst ha
      rw [he]
      refine ⟨rfl, ?_⟩
      show is_non_academic "" = false
      decide
  · intro l₁ l₂ a names comps h
    induction l₁ generalizing names comps with
    | nil => simp [collectAux, h]
    | cons b l₁ ih =>
      simp only [List.cons_append, collectAux]
      cases hb : is_non_academic b.affiliation <;> simp [hb, ih]

/-- Witness for C9: an author with the empty affiliation is dropped by the
accumulation. -/
theorem empty_affiliation_classifies_academic_witness :
    collectAux [Author.mk "A" "" none] [] [] = collectAux [] [] [] :=
  (empty_affiliation_classifies_academic).2.2 [] [] ⟨"A", "", none⟩ [] [] (by decide)

/-! ## The accumulation of the filter loop -/

/-- Characterization of the author loop: the name accumulator collects the
names of the non-academically-affiliated authors in order, and the company
accumulator performs first-occurrence deduplication over their extracted
company names. -/
theorem collectAux_eq (authors : List Author) (names comps : List String) :
    collectAux authors names comps =
      (names ++ (authors.filter (fun a => is_non_academic a.affiliation)).map Author.name,
       dedupFirstAux comps
         ((authors.filter (fun a => is_non_academic a.affiliation)).map
           (fun a => extract_company_name a.affiliation))) := by
  induction authors generalizing names comps with
  | nil => simp [collectAux, dedupFirstAux]
  | cons a rest ih =>
    cases ha : is_non_academic a.affiliation with
    | false => simp [collectAux, ha, List.filter_cons, ih]
    | true =>
      cases hm : comps.contains (extract_company_name a.affiliation) with
      | true =>
        have hm' : extract_company_name a.affiliation ∈ comps := by simpa using hm
        simp [collectAux, ha, hm, hm', List.filter_cons, ih, dedupFirstAux,
          List.append_assoc]
      | false =>
        have hm' : extract_company_name a.affiliation ∉ comps := by simpa using hm
        simp [collectAux, ha, hm, hm', List.filter_cons, ih, dedupFirstAux,
          List.append_assoc]

/-- The name accumulator is empty exactly when no author classifies
non-academic. -/
theorem collect_isEmpty (authors : List Author) :
    (collectAux authors [] []).1.isEmpty =
      !(authors.any (fun a => is_non_academic a.affiliation)) := by
  rw [collectAux_eq]
  simp only [List.nil_append]
  cases h : authors.any (fun a => is_non_academic a.affiliation) with
  | true =>
    obtain ⟨a, hmem, hf⟩ := List.any_eq_true.mp h
    have hfil : a ∈ authors.filter (fun a => is_non_academic a.affiliation) :=
      List.mem_filter.mpr ⟨hmem, hf⟩
    cases hcase : authors.filter (fun a => is_non_academic a.affiliation) with
    | nil => rw [hcase] at hfil; simp at hfil
    | cons b l => simp [hcase]
  | false =>
    have hfil : authors.filter (fun a => is_non_academic a.affiliation) = [] := by
      rw [List.filter_eq_nil_iff]
      intro a hmem hf
      have : authors.any (fun a => is_non_academic a.affiliation) = true :=
        List.any_eq_true.mpr ⟨a, hmem, hf⟩
      rw [this] at h
      exact Bool.noConfusion h
    simp [hfil]


/-- First-occurrence deduplication preserves `Nodup` of the accumulator. -/
theorem dedupFirstAux_nodup (l : List String) :
    ∀ acc, acc.Nodup → (dedupFirstAux acc l).Nodup := by
  induction l with
  | nil => intro acc h; simpa [dedupFirstAux] using h
  | cons a l ih =>
    intro acc h
    unfold dedupFirstAux
    cases hm : acc.contains a with
    | true => exact ih acc h
    | false =>
      have ha : a ∉ acc := by simpa using hm
      refine ih _ ?_
      rw [List.nodup_append]
      exact ⟨h, List.nodup_singleton a, by simpa using ha⟩

/-- First-occurrence deduplication emits at most one element per input
element. -/
theorem dedupFirstAux_length (l : List String) :
    ∀ acc, (dedupFirstAux acc l).length ≤ acc.length + l.length := by
  induction l with
  | nil => intro acc; simp [dedupFirstAux]
  | cons a l ih =>
    intro acc
    cases hm : acc.contains a with
    | true =>
      have hm' : a ∈ acc := by simpa using hm
      have h1 := ih acc
      simp [dedupFirstAux, hm']
      omega
    | false =>
      have hm' : a ∉ acc := by simpa using hm
      have h1 := ih (acc ++ [a])
      simp only [List.length_append, List.length_cons, List.length_nil] at h1
      simp [dedupFirstAux, hm']
      omega

/-- First-occurrence deduplication never discards accumulator elements. -/
theorem dedupFirstAux_ge (l : List String) :
    ∀ acc, acc.length ≤ (dedupFirstAux acc l).length := by
  induction l with
  | nil => intro acc; simp [dedupFirstAux]
  | cons a l ih =>
    intro acc
    unfold dedupFirstAux
    cases hm : acc.contains a with
    | true => exact ih acc
    | false =>
      refine le_trans ?_ (ih (acc ++ [a]))
      simp

/-- Deduplicating a non-empty list yields a non-empty list. -/
theorem dedupFirst_ne_nil {l : List String} (h : l ≠ []) : dedupFirst l ≠ [] := by
  cases l with
  | nil => exact absurd rfl h
  | cons a l =>
    show dedupFirstAux [a] l ≠ []
    intro hnil
    have := dedupFirstAux_ge l [a]
    rw [hnil] at this
    simp at this

/-- The `FilteredPaper` the filter constructs for a qualifying `Paper`. -/
def buildFilteredPaper (p : Paper) : FilteredPaper :=
  { pubmed_id := p.pubmed_id
    title := p.title
    publication_date := p.publication_date
    non_academic_authors := (collectAux p.authors [] []).1
    company_affiliations := (collectAux p.authors [] []).2
    corresponding_author_email := p.corresponding_author_email }

/-- C4: the filter emits exactly one `FilteredPaper` for each paper with at
least one non-academically-affiliated author, zero entries for papers whose
authors all classify academic, and the outputs keep the input's relative
order. -/
theorem filter_emits_one_per_company_paper (papers : List Paper) :
    filter_papers_with_company_authors papers =
      papers.filterMap (fun p =>
        if p.authors.any (fun a => is_non_academic a.affiliation) then
          some (buildFilteredPaper p)
        else none) := by
  induction papers with
  | nil => rfl
  | cons p rest ih =>
    rw [List.filterMap_cons]
    cases hany : p.authors.any (fun a => is_non_academic a.affiliation) with
    | true =>
      have hne : (collectAux p.authors [] []).1.isEmpty = false := by
        rw [collect_isEmpty, hany]; rfl
      simp [filter_papers_with_company_authors, hne, ih, buildFilteredPaper]
    | false =>
      have hne : (collectAux p.authors [] []).1.isEmpty = true := by
        rw [collect_isEmpty, hany]; rfl
      simp [filter_papers_with_company_authors, hne, ih]

/-- C5: each emitted `FilteredPaper` lists the names of the source paper's
non-academic authors in author order without deduplication, and the
extracted company labels of those authors in first-occurrence order with
exact-string deduplication; hence the label list is non-empty, pairwise
distinct, and no longer than the name list. -/
theorem filtered_paper_author_company_lists (papers : List Paper) (fp : FilteredPaper)
    (hmem : fp ∈ filter_papers_with_company_authors papers) :
    ∃ p ∈ papers,
      fp.non_academic_authors =
        (p.authors.filter (fun a => is_non_academic a.affiliation)).map Author.name ∧
      fp.company_affiliations =
        dedupFirst ((p.authors.filter (fun a => is_non_academic a.affiliation)).map
          (fun a => extract_company_name a.affiliation)) ∧
      fp.company_affiliations ≠ [] ∧
      fp.company_affiliations.Nodup ∧
      fp.company_affiliations.length ≤ fp.non_academic_authors.length := by
  induction papers with
  | nil => simp [filter_papers_with_company_authors] at hmem
  | cons p rest ih =>
    cases hne : (collectAux p.authors [] []).1.isEmpty with
    | true =>
      rw [show filter_papers_with_company_authors (p :: rest) =
            filter_papers_with_company_authors rest by
          simp [filter_papers_with_company_authors, hne]] at hmem
      obtain ⟨q, hq, hrest⟩ := ih hmem
      exact ⟨q, List.mem_cons_of_mem _ hq, hrest⟩
    | false =>
      rw [show filter_papers_with_company_authors (p :: rest) =
            buildFilteredPaper p :: filter_papers_with_company_authors rest by
          simp [filter_papers_with_company_authors, hne, buildFilteredPaper]] at hmem
      rcases List.mem_cons.mp hmem with heq | hmem'
      · subst heq
        have hfilter : p.authors.filter (fun a => is_non_academic a.affiliation) ≠ [] := by
          intro hemp
          have : (collectAux p.authors [] []).1.isEmpty = true := by
            rw [collectAux_eq]
            simp [hemp]
          rw [this] at hne
          exact Bool.noConfusion hne
        refine ⟨p, List.mem_cons_self _ _, ?_, ?_, ?_, ?_, ?_⟩
        · rw [buildFilteredPaper, collectAux_eq]
          simp
        · rw [buildFilteredPaper, collectAux_eq]
          rfl
        · show (buildFilteredPaper p).company_affiliations ≠ []
          rw [buildFilteredPaper, collectAux_eq]
          show dedupFirst _ ≠ []
          apply dedupFirst_ne_nil
          simpa using hfilter
        · show (buildFilteredPaper p).company_affiliations.Nodup
          rw [buildFilteredPaper, collectAux_eq]
          exact dedupFirstAux_nodup _ [] List.nodup_nil
        · show (buildFilteredPaper p).company_affiliations.length ≤
            (buildFilteredPaper p).non_academic_authors.length
          rw [buildFilteredPaper, collectAux_eq]
          have hlen := dedupFirstAux_length
            ((p.authors.filter (fun a => is_non_academic a.affiliation)).map
              (fun a => extract_company_name a.affiliation)) []
          simpa using hlen
      · obtain ⟨q, hq, hrest⟩ := ih hmem'
        exact ⟨q, List.mem_cons_of_mem _ hq, hrest⟩

/-- Sample input for the C5 witness. -/
def samplePaper : Paper :=
  ⟨"1", "T", "2023", [⟨"A", "MIT", none⟩, ⟨"B", "Moderna Inc", none⟩], none⟩

/-- Sample output for the C5 witness. -/
def sampleFiltered : FilteredPaper :=
  ⟨"1", "T", "2023", ["B"], ["Moderna Inc"], none⟩

/-- Witness for C5 at the spec's own example paper. -/
theorem filtered_paper_author_company_lists_witness :
    ∃ p ∈ [samplePaper],
      sampleFiltered.non_academic_authors =
        (p.authors.filter (fun a => is_non_academic a.affiliation)).map Author.name ∧
      sampleFiltered.company_affiliations =
        dedupFirst ((p.authors.filter (fun a => is_non_academic a.affiliation)).map
          (fun a => extract_company_name a.affiliation)) ∧
      sampleFiltered.company_affiliations ≠ [] ∧
      sampleFiltered.company_affiliations.Nodup ∧
      sampleFiltered.company_affiliations.length ≤
        sampleFiltered.non_academic_authors.length :=
  filtered_paper_author_company_lists [samplePaper] sampleFiltered (by decide)

/-! ## C10: the e-mail scan versus the extracted author list -/

/-- A record whose first author element has no `LastName` (so it is skipped
by `_extract_authors`) but carries the only e-mail-bearing affiliation. -/
def skippedAuthorRecord : List AuthorElem :=
  [⟨none, none, some "Contact a@b.co"⟩, ⟨some "Smith", some "Jane", some "MIT"⟩]

/-- C10: the corresponding-e-mail scan visits author elements that lack a
last name and are absent from the extracted author list; on this record the
returned e-mail occurs in no affiliation of any extracted author. -/
theorem email_scan_sees_skipped_authors :
    (skippedAuthorRecord.head?.map AuthorElem.lastName) = some none ∧
    extract_corresponding_email skippedAuthorRecord = some "a@b.co" ∧
    extract_authors skippedAuthorRecord = [⟨"Jane Smith", "MIT", none⟩] ∧
    ∀ a ∈ extract_authors skippedAuthorRecord,
      listContains "a@b.co".data a.affiliation.data = false := by
  decide

/-! ## C8: the `" | "` join/split round trip -/

/-- List-level counterpart of `joinPipe`. -/
def joinPipeCore : List (List Char) → List Char
  | [] => []
  | [x] => x
  | x :: y :: rest => x ++ ' ' :: '|' :: ' ' :: joinPipeCore (y :: rest)

/-- The last two characters are `" |"` (space then pipe). -/
def endsWithSpacePipe : List Char → Bool
  | [] => false
  | [_] => false
  | [a, b] => a == ' ' && b == '|'
  | _ :: b :: c :: rest => endsWithSpacePipe (b :: c :: rest)

/-- `(a ++ b).data = a.data ++ b.data` for strings. -/
theorem string_data_append (a b : String) : (a ++ b).data = a.data ++ b.data := rfl

/-- `joinPipe` agrees with its list-level counterpart. -/
theorem joinPipe_data (l : List String) :
    (joinPipe l).data = joinPipeCore (l.map String.data) := by
  induction l with
  | nil => rfl
  | cons x rest ih =>
    cases rest with
    | nil => rfl
    | cons y rest2 =>
      show (x ++ " | " ++ joinPipe (y :: rest2)).data =
        x.data ++ ' ' :: '|' :: ' ' :: joinPipeCore ((y :: rest2).map String.data)
      rw [← ih, string_data_append, string_data_append, List.append_assoc]
      rfl

/-- A separator-free chunk is returned whole by the splitter. -/
theorem noSep_split (x : List Char) (h : listContains [' ', '|', ' '] x = false) :
    splitPipeCore x = [x] := by
  induction x with
  | nil => rfl
  | cons c rest ih =>
    have hsplit : listStartsWith [' ', '|', ' '] (c :: rest) = false ∧
        listContains [' ', '|', ' '] rest = false := by
      unfold listContains at h
      exact ⟨(Bool.or_eq_false_iff.mp h).1, (Bool.or_eq_false_iff.mp h).2⟩
    cases rest with
    | nil => rfl
    | cons d rest2 =>
      cases rest2 with
      | nil => rfl
      | cons e rest3 =>
        have hcond : ¬(c = ' ' ∧ d = '|' ∧ e = ' ') := by
          rintro ⟨hc, hd, he⟩
          subst hc; subst hd; subst he
          simp [listStartsWith] at hsplit
        simp only [splitPipeCore]
        rw [if_neg hcond, ih hsplit.2]

/-- The splitter consumes a leading separator. -/
theorem splitPipeCore_sep (R : List Char) :
    splitPipeCore (' ' :: '|' :: ' ' :: R) = [] :: splitPipeCore R := rfl

/-- The splitter on a list of length ≥ 3 that does not start with the
separator: keep the head and recurse. -/
theorem splitPipeCore_cons (c d e : Char) (R : List Char)
    (h : ¬(c = ' ' ∧ d = '|' ∧ e = ' ')) :
    splitPipeCore (c :: d :: e :: R) =
      (match splitPipeCore (d :: e :: R) with
       | [] => [[c]]
       | p :: ps => (c :: p) :: ps) := by
  simp only [splitPipeCore]
  rw [if_neg h]

/-- Key step: prepending a separator-free chunk that does not end in
`" |"`, followed by the separator, to any text splits off exactly that
chunk. -/
theorem split_join_step (x : List Char) :
    ∀ R, splitPipeCore x = [x] → endsWithSpacePipe x = false →
      splitPipeCore (x ++ ' ' :: '|' :: ' ' :: R) = x :: splitPipeCore R := by
  induction x with
  | nil =>
    intro R _ _
    simp only [List.nil_append]
    exact splitPipeCore_sep R
  | cons c xy ih =>
    intro R hx he
    cases xy with
    | nil =>
      show splitPipeCore (c :: ' ' :: '|' :: ' ' :: R) = [c] :: splitPipeCore R
      rw [splitPipeCore_cons c ' ' '|' (' ' :: R)
        (by rintro ⟨-, hd, -⟩; exact absurd hd (by decide))]
      rw [splitPipeCore_sep]
    | cons d xz =>
      cases xz with
      | nil =>
        have hcond : ¬(c = ' ' ∧ d = '|' ∧ ' ' = ' ') := by
          rintro ⟨hc, hd, -⟩
          subst hc; subst hd
          simp [endsWithSpacePipe] at he
        have hstep := ih R rfl (by simp [endsWithSpacePipe])
        simp only [List.cons_append, List.nil_append] at hstep
        show splitPipeCore (c :: d :: ' ' :: '|' :: ' ' :: R) =
          [c, d] :: splitPipeCore R
        rw [splitPipeCore_cons c d ' ' ('|' :: ' ' :: R) hcond, hstep]
      | cons e xw =>
        by_cases hcond : c = ' ' ∧ d = '|' ∧ e = ' '
        · exfalso
          obtain ⟨hc, hd, he2⟩ := hcond
          subst hc; subst hd; subst he2
          rw [splitPipeCore_sep] at hx
          injection hx with h1 _
          exact List.noConfusion h1
        · have hxy : splitPipeCore (d :: e :: xw) = [d :: e :: xw] := by
            rw [splitPipeCore_cons c d e xw hcond] at hx
            cases hsp : splitPipeCore (d :: e :: xw) with
            | nil =>
              rw [hsp] at hx
              injection hx with h1 _
              injection h1 with _ h3
              exact List.noConfusion h3
            | cons p ps =>
              rw [hsp] at hx
              injection hx with h1 h2
              injection h1 with _ h3
              rw [h2, h3]
          have he' : endsWithSpacePipe (d :: e :: xw) = false := he
          have hstep := ih R hxy he'
          simp only [List.cons_append] at hstep ⊢
          rw [splitPipeCore_cons c d e (xw ++ ' ' :: '|' :: ' ' :: R) hcond, hstep]

/-- Round trip at list-of-chunks level: splitting the `" | "`-join of a
non-empty list of chunks recovers the list, provided no chunk contains the
separator and no non-final chunk ends with `" |"`. -/
theorem split_join (l : List (List Char)) :
    l ≠ [] → (∀ x ∈ l, listContains [' ', '|', ' '] x = false) →
    (∀ x ∈ l.dropLast, endsWithSpacePipe x = false) →
    splitPipeCore (joinPipeCore l) = l := by
  induction l with
  | nil => intro h; exact absurd rfl h
  | cons x rest ih =>
    intro _ hc he
    cases rest with
    | nil => simpa [joinPipeCore] using noSep_split x (hc x (by simp))
    | cons y rest2 =>
      have hx : splitPipeCore x = [x] := noSep_split x (hc x (by simp))
      have hex : endsWithSpacePipe x = false := he x (by simp)
      rw [show joinPipeCore (x :: y :: rest2) =
        x ++ ' ' :: '|' :: ' ' :: joinPipeCore (y :: rest2) from rfl]
      rw [split_join_step x (joinPipeCore (y :: rest2)) hx hex]
      congr 1
      refine ih (by simp) (fun z hz => hc z (List.mem_cons_of_mem _ hz)) ?_
      intro z hz
      refine he z ?_
      rw [List.dropLast_cons₂]
      exact List.mem_cons_of_mem _ hz

/-- Round trip at `String` level. -/
theorem splitPipeStr_joinPipe (l : List String) (hne : l ≠ [])
    (hc : ∀ x ∈ l, listContains [' ', '|', ' '] x.data = false)
    (he : ∀ x ∈ l.dropLast, endsWithSpacePipe x.data = false) :
    splitPipeStr (joinPipe l) = l := by
  unfold splitPipeStr
  rw [joinPipe_data, split_join (l.map String.data)]
  · rw [List.map_map]
    have hmk : (String.mk ∘ String.data) = id := funext fun s => rfl
    rw [hmk, List.map_id]
  · simpa using hne
  · intro z hz
    obtain ⟨s, hs, rfl⟩ := List.mem_map.mp hz
    exact hc s hs
  · intro z hz
    rw [← List.map_dropLast] at hz
    obtain ⟨s, hs, rfl⟩ := List.mem_map.mp hz
    exact he s hs

/-- A `FilteredPaper` none of whose list elements contains `" | "`, yet
whose rendered author column does not split back to the author list: the
non-final element `"A |"` ends in `" |"`, so joining creates an earlier
separator occurrence. -/
def roundtripCounterexample : FilteredPaper :=
  ⟨"1", "T", "2023", ["A |", "B"], ["C"], none⟩

/-- C8 counterexample: with elements `["A |", "B"]` (neither containing
`" | "`), the rendered author column `"A | | B"` splits to
`["A", "| B"]`, not back to the original list. -/
theorem pipe_roundtrip_fails_on_boundary_element :
    (∀ x ∈ roundtripCounterexample.non_academic_authors,
      listContains [' ', '|', ' '] x.data = false) ∧
    (∀ x ∈ roundtripCounterexample.company_affiliations,
      listContains [' ', '|', ' '] x.data = false) ∧
    splitPipeStr ((rowOfFilteredPaper roundtripCounterexample).nonAcademicAuthors) ≠
      roundtripCounterexample.non_academic_authors := by
  decide

/-- C8 (amended): for a `FilteredPaper` with non-empty author and company
lists, none of whose elements contains `" | "` and none of whose non-final
elements ends with `" |"`, splitting the rendered row's joined author and
affiliation columns on `" | "` recovers the original lists. -/
theorem pipe_join_split_roundtrip (fp : FilteredPaper)
    (h1 : fp.non_academic_authors ≠ [])
    (h2 : fp.company_affiliations ≠ [])
    (h3 : ∀ x ∈ fp.non_academic_authors, listContains [' ', '|', ' '] x.data = false)
    (h4 : ∀ x ∈ fp.company_affiliations, listContains [' ', '|', ' '] x.data = false)
    (h5 : ∀ x ∈ fp.non_academic_authors.dropLast, endsWithSpacePipe x.data = false)
    (h6 : ∀ x ∈ fp.company_affiliations.dropLast, endsWithSpacePipe x.data = false) :
    splitPipeStr ((rowOfFilteredPaper fp).nonAcademicAuthors) =
      fp.non_academic_authors ∧
    splitPipeStr ((rowOfFilteredPaper fp).companyAffiliations) =
      fp.company_affiliations :=
  ⟨splitPipeStr_joinPipe _ h1 h3 h5, splitPipeStr_joinPipe _ h2 h4 h6⟩

/-- Sample `FilteredPaper` for the C8 witness. -/
def roundtripExample : FilteredPaper :=
  ⟨"2", "U", "2024", ["Ann", "Bob"], ["Acme Inc"], some "a@b.co"⟩

/-- Witness for the amended C8 at a concrete two-author paper. -/
theorem pipe_join_split_roundtrip_witness :
    splitPipeStr ((rowOfFilteredPaper roundtripExample).nonAcademicAuthors) =
      roundtripExample.non_academic_authors ∧
    splitPipeStr ((rowOfFilteredPaper roundtripExample).companyAffiliations) =
      roundtripExample.company_affiliations :=
  pipe_join_split_roundtrip roundtripExample (by decide) (by decide) (by decide)
    (by decide) (by decide) (by decide)

/-! ## C7: soundness of the e-mail matcher -/

/-- Spec-side shape of an e-mail match: non-empty local part of local-class
characters, `'@'`, non-empty domain of domain-class characters, `'.'`, and
a TLD of length ≥ 2 of TLD-class characters. -/
def emailShaped (m : List Char) : Prop :=
  ∃ lo dom tld, m = lo ++ '@' :: (dom ++ '.' :: tld) ∧ lo ≠ [] ∧ dom ≠ [] ∧
    2 ≤ tld.length ∧ (∀ c ∈ lo, localClass c = true) ∧
    (∀ c ∈ dom, domainClass c = true) ∧ (∀ c ∈ tld, tldClass c = true)

/-- Spec-side statement that the e-mail pattern matches somewhere in the
text: at some split point, the attempt (with the correct preceding
character) succeeds. -/
def matchInText (t : List Char) : Prop :=
  ∃ pre suf, t = pre ++ suf ∧ attemptEmail pre.getLast? suf ≠ none

/-- The attempt fails on the empty remainder. -/
theorem attemptEmail_nil (prev : Option Char) : attemptEmail prev [] = none := rfl

/-- Elements of `takeWhile` prefixes satisfy the predicate. -/
theorem mem_take_of_le_takeWhile {p : Char → Bool} :
    ∀ (l : List Char) (n : Nat), n ≤ (l.takeWhile p).length →
      ∀ c ∈ l.take n, p c = true := by
  intro l
  induction l with
  | nil => intro n _ c hc; simp at hc
  | cons a l' ih =>
    intro n hn c hc
    cases n with
    | zero => simp at hc
    | succ m =>
      cases hp : p a with
      | false =>
        rw [List.takeWhile_cons_of_neg (by simp [hp])] at hn
        simp at hn
      | true =>
        rw [List.takeWhile_cons_of_pos hp] at hn
        simp only [List.length_cons, Nat.succ_le_succ_iff] at hn
        rw [List.take_succ_cons] at hc
        rcases List.mem_cons.mp hc with rfl | hc'
        · exact hp
        · exact ih m hn c hc'

/-- `takeWhile` never lengthens a list. -/
theorem takeWhile_length_le {p : Char → Bool} :
    ∀ l : List Char, (l.takeWhile p).length ≤ l.length := by
  intro l
  induction l with
  | nil => simp
  | cons a l' ih =>
    cases hp : p a with
    | false => rw [List.takeWhile_cons_of_neg (by simp [hp])]; simp
    | true =>
      rw [List.takeWhile_cons_of_pos hp]
      simpa using ih

/-- Inversion of the greedy TLD matcher: a success is a prefix of the text
of length ≥ 2 lying inside the TLD-class run. -/
theorem tryTldFrom_some (ts : List Char) :
    ∀ n out, tryTldFrom ts n = some out →
      ∃ t, out = ts.take (t + 1) ∧ 2 ≤ t + 1 ∧
        t + 1 ≤ (ts.takeWhile tldClass).length := by
  intro n
  induction n with
  | zero => intro out h; exact absurd h (by simp [tryTldFrom])
  | succ t ih =>
    intro out h
    unfold tryTldFrom at h
    split at h
    next hcond =>
      injection h with hout
      simp only [Bool.and_eq_true, decide_eq_true_eq] at hcond
      exact ⟨t, hout.symm, hcond.1.1, hcond.1.2⟩
    next => exact ih out h

/-- Inversion of the greedy domain matcher: a success splits the
domain-class run at a literal `'.'` with a TLD success after it. -/
theorem tryDom_some (run after : List Char) :
    ∀ n dom tld, tryDom run after n = some (dom, tld) →
      ∃ d tsrun, run.drop (d + 1) = '.' :: tsrun ∧ dom = run.take (d + 1) ∧
        tryTld (tsrun ++ after) = some tld := by
  intro n
  induction n with
  | zero => intro dom tld h; exact absurd h (by simp [tryDom])
  | succ d ih =>
    intro dom tld h
    unfold tryDom at h
    split at h
    next tsrun heq =>
      split at h
      next tld' htld =>
        injection h with hpair
        injection hpair with h1 h2
        exact ⟨d, tsrun, heq, h1.symm, by rw [htld, h2]⟩
      next => exact ih dom tld h
    next => exact ih dom tld h

/-- Soundness of one matching attempt: a success is a prefix of the
remaining text and has the e-mail shape. -/
theorem attemptEmail_some (prev : Option Char) (s m : List Char)
    (h : attemptEmail prev s = some m) :
    (∃ s2, s = m ++ s2) ∧ emailShaped m := by
  unfold attemptEmail at h
  split at h
  next hempty => simp at h
  next hempty =>
    split at h
    next hbd => simp at h
    next hbd =>
      split at h
      next rest2 hdrop =>
        split at h
        next dom tld hdom =>
          injection h with hm
          obtain ⟨d, tsrun, hdropd, hdomtake, htld⟩ :=
            tryDom_some _ _ _ dom tld hdom
          obtain ⟨t, htldtake, ht2, htlen⟩ := tryTldFrom_some _ _ tld htld
          subst hm
          constructor
          · refine ⟨((tsrun ++ rest2.dropWhile domainClass).drop (t + 1)), ?_⟩
            conv_lhs => rw [← List.takeWhile_append_dropWhile localClass s]
            rw [hdrop]
            conv_lhs =>
              rw [show rest2 =
                rest2.takeWhile domainClass ++ rest2.dropWhile domainClass from
                (List.takeWhile_append_dropWhile domainClass rest2).symm]
            conv_lhs =>
              rw [show rest2.takeWhile domainClass =
                (rest2.takeWhile domainClass).take (d + 1) ++
                  (rest2.takeWhile domainClass).drop (d + 1) from
                (List.take_append_drop _ _).symm]
            rw [hdropd, hdomtake, htldtake]
            simp [List.append_assoc]
          · refine ⟨s.takeWhile localClass, dom, tld, rfl, ?_, ?_, ?_, ?_, ?_, ?_⟩
            · simpa using hempty
            · rw [hdomtake]
              intro hnil
              rw [List.take_eq_nil_iff] at hnil
              rcases hnil with h0 | hrun_nil
              · exact Nat.succ_ne_zero d h0
              · rw [hrun_nil] at hdropd; simp at hdropd
            · rw [htldtake, List.length_take]
              have hts_le : ((tsrun ++ rest2.dropWhile domainClass).takeWhile
                  tldClass).length ≤ (tsrun ++ rest2.dropWhile domainClass).length :=
                takeWhile_length_le _
              omega
            · intro c hc; exact List.mem_takeWhile_imp hc
            · intro c hc
              rw [hdomtake] at hc
              exact List.mem_takeWhile_imp (List.mem_of_mem_take hc)
            · intro c hc
              rw [htldtake] at hc
              exact mem_take_of_le_takeWhile _ (t + 1) htlen c hc
        next => simp at h
      next => simp at h

/-- The scan cannot find a match on the empty text. -/
theorem not_matchInText_nil : ¬ matchInText ([] : List Char) := by
  rintro ⟨pre, suf, hsplit, hne⟩
  obtain ⟨-, hsuf⟩ := List.append_eq_nil.mp hsplit.symm
  rw [hsuf] at hne
  exact hne (attemptEmail_nil _)

/-- A successful scan splits the text at the match position, with the
preceding character threaded correctly. -/
theorem findFirstEmailAux_some_split (suf : List Char) :
    ∀ pre m, findFirstEmailAux pre.getLast? suf = some m →
      ∃ p2 s2, suf = p2 ++ s2 ∧ attemptEmail (pre ++ p2).getLast? s2 = some m := by
  induction suf with
  | nil => intro pre m h; simp [findFirstEmailAux] at h
  | cons c rest ih =>
    intro pre m h
    unfold findFirstEmailAux at h
    split at h
    next m' hA =>
      injection h with hm
      refine ⟨[], c :: rest, rfl, ?_⟩
      rw [List.append_nil, hA, hm]
    next hA =>
      have h' : findFirstEmailAux (pre ++ [c]).getLast? rest = some m := by
        rwa [List.getLast?_concat]
      obtain ⟨p2, s2, hs, ha⟩ := ih (pre ++ [c]) m h'
      refine ⟨c :: p2, s2, by rw [hs, List.cons_append], ?_⟩
      rwa [List.append_assoc, List.singleton_append] at ha

/-- The scan fails exactly when the attempt fails at every split point. -/
theorem findFirstEmailAux_none_iff (suf : List Char) :
    ∀ pre, (findFirstEmailAux pre.getLast? suf = none ↔
      ∀ p2 s2, suf = p2 ++ s2 → attemptEmail (pre ++ p2).getLast? s2 = none) := by
  induction suf with
  | nil =>
    intro pre
    constructor
    · intro _ p2 s2 hsplit
      obtain ⟨-, hs2⟩ := List.append_eq_nil.mp hsplit.symm
      rw [hs2]
      exact attemptEmail_nil _
    · intro _; rfl
  | cons c rest ih =>
    intro pre
    constructor
    · intro h p2 s2 hsplit
      cases hA : attemptEmail pre.getLast? (c :: rest) with
      | some m =>
        unfold findFirstEmailAux at h
        rw [hA] at h
        simp at h
      | none =>
        unfold findFirstEmailAux at h
        rw [hA] at h
        have haux : findFirstEmailAux (pre ++ [c]).getLast? rest = none := by
          rwa [List.getLast?_concat]
        have h' := (ih (pre ++ [c])).mp haux
        cases p2 with
        | nil =>
          simp only [List.nil_append] at hsplit
          subst hsplit
          simpa using hA
        | cons c' p2' =>
          injection hsplit with h1 h2
          subst h1
          have := h' p2' s2 h2
          simpa [List.append_assoc] using this
    · intro hall
      unfold findFirstEmailAux
      cases hA : attemptEmail pre.getLast? (c :: rest) with
      | some m =>
        exfalso
        have := hall [] (c :: rest) rfl
        rw [List.append_nil, hA] at this
        exact Option.noConfusion this
      | none =>
        show findFirstEmailAux (some c) rest = none
        have : findFirstEmailAux (pre ++ [c]).getLast? rest = none := by
          refine (ih (pre ++ [c])).mpr ?_
          intro p2 s2 hsplit
          have := hall (c :: p2) s2 (by rw [hsplit, List.cons_append])
          simpa [List.append_assoc] using this
        rwa [List.getLast?_concat] at this

/-- `findFirstEmail` fails exactly when the pattern matches nowhere. -/
theorem findFirstEmail_none_iff (t : String) :
    findFirstEmail t = none ↔ ¬ matchInText t.data := by
  unfold findFirstEmail
  rw [Option.map_eq_none']
  constructor
  · intro h
    rintro ⟨pre, suf, hsplit, hne⟩
    exact hne ((findFirstEmailAux_none_iff t.data []).mp h pre suf hsplit)
  · intro h
    refine (findFirstEmailAux_none_iff t.data []).mpr ?_
    intro p2 s2 hsplit
    by_contra hne
    exact h ⟨p2, s2, hsplit, hne⟩

/-- Spec formulation of the scan order: the first e-mail match over the
affiliation texts of the author elements, in document order. -/
def firstScan (elems : List AuthorElem) : Option String :=
  elems.findSome? (fun e => e.affiliation.bind (fun t => findFirstEmail t))

/-- `findFirstEmail` fails on the empty text. -/
theorem findFirstEmail_empty : findFirstEmail "" = none := rfl

/-- The extractor equals the first match of the document-order scan. -/
theorem extract_email_eq_firstScan (elems : List AuthorElem) :
    extract_corresponding_email elems = firstScan elems := by
  induction elems with
  | nil => rfl
  | cons e rest ih =>
    unfold extract_corresponding_email firstScan
    rw [List.findSome?_cons]
    cases he : e.affiliation with
    | none => simpa using ih
    | some t =>
      by_cases ht : t = ""
      · subst ht
        simpa [findFirstEmail_empty] using ih
      · cases hf : findFirstEmail t with
        | none => simpa [ht, hf] using ih
        | some m => simp [ht, hf]

/-- The extractor returns nothing exactly when no author's affiliation text
contains a match of the e-mail pattern. -/
theorem extract_email_none_iff (elems : List AuthorElem) :
    extract_corresponding_email elems = none ↔
      ∀ e ∈ elems, ∀ t, e.affiliation = some t → ¬ matchInText t.data := by
  induction elems with
  | nil => simp [extract_corresponding_email]
  | cons e rest ih =>
    obtain ⟨ln, fn, aff⟩ := e
    cases aff with
    | none =>
      rw [show extract_corresponding_email (AuthorElem.mk ln fn none :: rest) =
        extract_corresponding_email rest from rfl, ih]
      constructor
      · intro h e' he' t ht
        rcases List.mem_cons.mp he' with rfl | hmem
        · exact Option.noConfusion ht
        · exact h e' hmem t ht
      · intro h e' hmem t ht
        exact h e' (List.mem_cons_of_mem _ hmem) t ht
    | some t =>
      by_cases ht : t = ""
      · subst ht
        rw [show extract_corresponding_email (AuthorElem.mk ln fn (some "") :: rest) =
          extract_corresponding_email rest from rfl, ih]
        constructor
        · intro h e' he' t' ht'
          rcases List.mem_cons.mp he' with rfl | hmem
          · have ht'' : some "" = some t' := ht'
            injection ht'' with ht''
            rw [← ht'']
            exact not_matchInText_nil
          · exact h e' hmem t' ht'
        · intro h e' hmem t' ht'
          exact h e' (List.mem_cons_of_mem _ hmem) t' ht'
      · simp only [extract_corresponding_email]
        rw [if_neg ht]
        cases hf : findFirstEmail t with
        | some m =>
          constructor
          · intro h; exact absurd h (by simp)
          · intro hall
            exfalso
            unfold findFirstEmail at hf
            obtain ⟨m', haux, -⟩ := Option.map_eq_some'.mp hf
            obtain ⟨p2, s2, hsplit, ha⟩ :=
              findFirstEmailAux_some_split t.data [] m' haux
            rw [List.nil_append] at ha
            exact (hall (AuthorElem.mk ln fn (some t)) (List.mem_cons_self _ _) t rfl)
              ⟨p2, s2, hsplit, by rw [ha]; simp⟩
        | none =>
          rw [ih]
          constructor
          · intro h e' he' t' ht'
            rcases List.mem_cons.mp he' with rfl | hmem
            · have ht'' : some t = some t' := ht'
              injection ht'' with ht''
              rw [← ht'']
              exact (findFirstEmail_none_iff t).mp hf
            · exact h e' hmem t' ht'
          · intro h e' hmem t' ht'
            exact h e' (List.mem_cons_of_mem _ hmem) t' ht'

/-- Soundness of the extractor: a returned e-mail occurs as a substring of
some author's affiliation text and has the e-mail shape. -/
theorem extract_email_some_shaped (elems : List AuthorElem) :
    ∀ m, extract_corresponding_email elems = some m →
      ∃ e ∈ elems, ∃ t, e.affiliation = some t ∧
        (∃ pre suf, t.data = pre ++ m.data ++ suf) ∧ emailShaped m.data := by
  induction elems with
  | nil => intro m h; simp [extract_corresponding_email] at h
  | cons e rest ih =>
    intro m h
    obtain ⟨ln, fn, aff⟩ := e
    cases aff with
    | none =>
      rw [show extract_corresponding_email (AuthorElem.mk ln fn none :: rest) =
        extract_corresponding_email rest from rfl] at h
      obtain ⟨e', he', rest'⟩ := ih m h
      exact ⟨e', List.mem_cons_of_mem _ he', rest'⟩
    | some t =>
      by_cases ht : t = ""
      · subst ht
        rw [show extract_corresponding_email (AuthorElem.mk ln fn (some "") :: rest) =
          extract_corresponding_email rest from rfl] at h
        obtain ⟨e', he', rest'⟩ := ih m h
        exact ⟨e', List.mem_cons_of_mem _ he', rest'⟩
      · simp only [extract_corresponding_email] at h
        rw [if_neg ht] at h
        cases hf : findFirstEmail t with
        | none =>
          rw [hf] at h
          obtain ⟨e', he', rest'⟩ := ih m h
          exact ⟨e', List.mem_cons_of_mem _ he', rest'⟩
        | some m0 =>
          rw [hf] at h
          have hm : m0 = m := by simpa using h
          subst hm
          unfold findFirstEmail at hf
          obtain ⟨m', haux, hmap⟩ := Option.map_eq_some'.mp hf
          obtain ⟨p2, s2, hsplit, ha⟩ :=
            findFirstEmailAux_some_split t.data [] m' haux
          rw [List.nil_append] at ha
          obtain ⟨⟨s3, hs3⟩, hshape⟩ := attemptEmail_some _ _ _ ha
          refine ⟨AuthorElem.mk ln fn (some t), List.mem_cons_self _ _, t, rfl,
            ⟨p2, s3, ?_⟩, ?_⟩
          · rw [hsplit, hs3, ← hmap]
            simp [List.append_assoc]
          · rw [← hmap]
            exact hshape

/-- C7: the extracted corresponding-author e-mail is the first e-mail
match found while scanning the author elements' affiliation texts in
document order; it is `none` exactly when no author's affiliation text
contains a match of the pattern; and a returned value is a substring of
some scanned affiliation text of the shape `local@domain.tld` with a TLD
of length ≥ 2. -/
theorem corresponding_email_first_match_scan (elems : List AuthorElem) :
    extract_corresponding_email elems = firstScan elems ∧
    (extract_corresponding_email elems = none ↔
      ∀ e ∈ elems, ∀ t, e.affiliation = some t → ¬ matchInText t.data) ∧
    (∀ m, extract_corresponding_email elems = some m →
      ∃ e ∈ elems, ∃ t, e.affiliation = some t ∧
        (∃ pre suf, t.data = pre ++ m.data ++ suf) ∧ emailShaped m.data) :=
  ⟨extract_email_eq_firstScan elems, extract_email_none_iff elems,
    extract_email_some_shaped elems⟩

/-- Record for the C7 witness. -/
def emailWitnessRecord : List AuthorElem := [⟨some "Doe", none, some "Lab j@x.org"⟩]

/-- Witness for C7: the soundness conjunct applied at a concrete record. -/
theorem corresponding_email_first_match_scan_witness :
    ∃ e ∈ emailWitnessRecord, ∃ t, e.affiliation = some t ∧
      (∃ pre suf, t.data = pre ++ ("j@x.org" : String).data ++ suf) ∧
      emailShaped ("j@x.org" : String).data :=
  (corresponding_email_first_match_scan emailWitnessRecord).2.2 "j@x.org" (by decide)
